import Mathlib

/-!
Shallow embedding of the Go code indexer (`src/main.py`) and verification of
the frozen claims about it.

The indexer walks every `.go` file of a project twice.  Pass one
(`collect_definitions` / `traverse`) extracts definitions (functions, methods,
constants, variables, types) together with doc comments, and builds a global
symbol table mapping a bare name to the id of the most recently seen
definition with that name.  Pass two (`collect_references` / `find_calls`)
finds call expressions and resolves the callee's literal text against that
table.  `merge_definitions_references` finally groups references by their
`definition_id` and attaches each group to its definition.

The external tree-sitter parser is modelled by an explicit syntax-tree type
`Node`; source text is a list of characters indexed by the byte offsets the
nodes carry (faithful for ASCII sources).  Python dictionaries are modelled
by association lists with insertion-order semantics: overwriting keeps the
entry's position, a new key is appended at the end, and lookup returns the
first (unique) matching entry, exactly as a Python `dict` behaves.
-/

namespace GoIndexer

/-- Concrete syntax tree node as exposed by the syntax provider: kind tag,
byte span, row span (0-based rows, as in tree-sitter `start_point[0]`),
the field name this node occupies in its parent (for `child_by_field_name`),
whether it is a named node (for `prev_named_sibling` chains), and the ordered
list of all children. -/
inductive Node : Type where
  | mk (tag : String) (startByte endByte startRow endRow : Nat)
      (fieldName : Option String) (isNamed : Bool) (children : List Node)

/-- The node's kind tag (`node.type` in the Python source). -/
def Node.type : Node → String
  | .mk t _ _ _ _ _ _ _ => t

/-- Start byte offset (`node.start_byte`). -/
def Node.startByte : Node → Nat
  | .mk _ sb _ _ _ _ _ _ => sb

/-- End byte offset (`node.end_byte`). -/
def Node.endByte : Node → Nat
  | .mk _ _ eb _ _ _ _ _ => eb

/-- Start row, 0-based (`node.start_point[0]`). -/
def Node.startRow : Node → Nat
  | .mk _ _ _ sr _ _ _ _ => sr

/-- End row, 0-based (`node.end_point[0]`). -/
def Node.endRow : Node → Nat
  | .mk _ _ _ _ er _ _ _ => er

/-- The field name this node occupies in its parent, if any. -/
def Node.fieldName : Node → Option String
  | .mk _ _ _ _ _ fn _ _ => fn

/-- Whether this node is a named node (tree-sitter distinction used by
`prev_named_sibling`). -/
def Node.isNamed : Node → Bool
  | .mk _ _ _ _ _ _ nm _ => nm

/-- Ordered list of all children (`node.children`). -/
def Node.children : Node → List Node
  | .mk _ _ _ _ _ _ _ cs => cs

/-- `node.child_by_field_name(f)`: the first child occupying field `f`. -/
def childByFieldName (n : Node) (f : String) : Option Node :=
  n.children.find? (fun c => c.fieldName == some f)

/-- The characters of `code[node.start_byte : node.end_byte]`. -/
def sliceChars (code : List Char) (n : Node) : List Char :=
  (code.drop n.startByte).take (n.endByte - n.startByte)

/-- `get_text(code, node)` from the source: the node's span of the file text. -/
def get_text (code : List Char) (n : Node) : String :=
  String.mk (sliceChars code n)

/-- Python `s.strip()`: remove leading and trailing whitespace. -/
def trimChars (s : List Char) : List Char :=
  ((s.dropWhile Char.isWhitespace).reverse.dropWhile Char.isWhitespace).reverse

/-- Python `s.lstrip("//").strip()` applied to a comment's text: drop every
leading slash, then surrounding whitespace. -/
def stripCommentText (s : String) : String :=
  String.mk (trimChars (s.toList.dropWhile (fun c => c == '/')))

/-- Fuel-driven scan for `replaceAll`; every step consumes at least one
character, so `s.length` fuel always suffices. -/
def replaceAllFuel (pat repl : List Char) : Nat → List Char → List Char
  | 0, s => s
  | _ + 1, [] => []
  | fuel + 1, c :: rest =>
    if pat.isPrefixOf (c :: rest) && !pat.isEmpty then
      repl ++ replaceAllFuel pat repl fuel ((c :: rest).drop pat.length)
    else
      c :: replaceAllFuel pat repl fuel rest

/-- Python `s.replace(pat, repl)` on character lists: replace every
(non-overlapping, left-to-right) occurrence of `pat`.  An empty pattern
leaves the string unchanged (the source only ever uses the non-empty
pattern `"package"`). -/
def replaceAll (pat repl s : List Char) : List Char :=
  replaceAllFuel pat repl s.length s

/-- Python `"\n".join(...)`-style first line: the text of `s` up to (not
including) the first newline, i.e. `s.split("\n")[0]`. -/
def firstLine (s : String) : String :=
  String.mk (s.toList.takeWhile (fun c => c != '\n'))

/-- The accumulating loop of `get_doc_comment`: walk the preceding named
siblings (nearest first) while each is a comment, pushing each stripped
comment text to the front of the accumulator. -/
def get_doc_comment_loop (code : List Char) : List Node → List String → List String
  | [], comments => comments
  | s :: rest, comments =>
    if s.type == "comment" then
      get_doc_comment_loop code rest (stripCommentText (get_text code s) :: comments)
    else
      comments

/-- `get_doc_comment(code, node)` from the source.  The chain of preceding
named siblings of the node (nearest sibling first) is passed explicitly,
standing for repeated `prev_named_sibling` navigation. -/
def get_doc_comment (code : List Char) (prevNamed : List Node) : Option String :=
  let comments := get_doc_comment_loop code prevNamed []
  if comments.isEmpty then none else some (String.intercalate "\n" comments)

/-- One recorded call site (`references` list entries in the source). -/
structure Reference where
  type : String
  name : String
  definition_id : String
  file_name : String
  language : String
  line : Nat
  context : String
deriving DecidableEq

/-- One recorded declaration (`definitions` list entries in the source). -/
structure Definition where
  id : String
  type : String
  doc_string : Option String
  signature : String
  snippet : String
  package_name : Option String
  file_name : String
  language : String
  line_from : Nat
  line_to : Nat
  references : List Reference
deriving DecidableEq

/-- The symbol table: a Python `dict` from name to definition id, modelled as
an association list with insertion-order semantics. -/
abbrev SymTable := List (String × String)

/-- `symbol_table[name] = unique_id`: overwrite in place if the key exists
(keeping its position), otherwise append the new entry. -/
def stInsert (st : SymTable) (k v : String) : SymTable :=
  if st.any (fun p => p.1 == k) then
    st.map (fun p => if p.1 = k then (k, v) else p)
  else
    st ++ [(k, v)]

/-- `symbol_table.get(name)`: the value of the first entry with key `k`. -/
def stLookup (st : SymTable) (k : String) : Option String :=
  (st.find? (fun p => p.1 == k)).map (fun p => p.2)

/-- Boolean substring test on character lists: does `pat` occur contiguously
inside `s`? -/
def containsSub (pat : List Char) : List Char → Bool
  | [] => pat.isEmpty
  | c :: rest => pat.isPrefixOf (c :: rest) || containsSub pat rest

/-- Python `"struct" in snippet`: literal substring test. -/
def containsStruct (s : String) : Bool :=
  containsSub "struct".toList s.toList

/-- The `(name, Definition)` pairs that the body of `traverse` produces for a
single node, before recursing into children.  Each pair corresponds to one
`symbol_table[name] = unique_id` assignment immediately followed by one
`definitions.append(...)` in the source, in that order. -/
def nodeDefs (code : List Char) (file filePath : String) (packageName : Option String)
    (prevNamed : List Node) (node : Node) : List (String × Definition) :=
  if node.type == "function_declaration" || node.type == "method_declaration" then
    match childByFieldName node "name" with
    | some nameNode =>
      let name := get_text code nameNode
      let elementType := "function"
      let snippet := get_text code node
      let signature := firstLine snippet
      let docComment := get_doc_comment code prevNamed
      let startLine := node.startRow + 1
      let endLine := node.endRow + 1
      let uniqueId := elementType ++ "_" ++ name ++ "_" ++ file ++ "_" ++ toString startLine
      [(name, ⟨uniqueId, elementType, docComment, signature, snippet, packageName,
        filePath, "Go", startLine, endLine, []⟩)]
    | none => []
  else if node.type == "const_declaration" || node.type == "var_declaration" then
    let snippet := get_text code node
    let startLine := node.startRow + 1
    let endLine := node.endRow + 1
    let docComment := get_doc_comment code prevNamed
    let names := (node.children.filter (fun c => c.type == "identifier")).map (get_text code)
    names.map (fun name =>
      let elementType := if node.type == "const_declaration" then "constant" else "variable"
      let uniqueId := elementType ++ "_" ++ name ++ "_" ++ file ++ "_" ++ toString startLine
      (name, ⟨uniqueId, elementType, docComment, firstLine snippet, snippet, packageName,
        filePath, "Go", startLine, endLine, []⟩))
  else if node.type == "type_declaration" then
    let snippet := get_text code node
    let startLine := node.startRow + 1
    let endLine := node.endRow + 1
    let nameNode := node.children.foldl
      (fun acc c => if c.type == "type_spec" then childByFieldName c "name" else acc) none
    match nameNode with
    | some nn =>
      let name := get_text code nn
      let elementType := if containsStruct snippet then "struct" else "interface"
      let uniqueId := elementType ++ "_" ++ name ++ "_" ++ file ++ "_" ++ toString startLine
      [(name, ⟨uniqueId, elementType, get_doc_comment code prevNamed, firstLine snippet,
        snippet, packageName, filePath, "Go", startLine, endLine, []⟩)]
    | none => []
  else []

mutual

/-- The recursive `traverse` closure inside `collect_definitions`: process the
node itself, then recurse into all children in order.  `prevNamed` is the
chain of preceding named siblings of `node` (nearest first), and the
accumulator carries the growing `definitions` list and `symbol_table`. -/
def traverse (code : List Char) (file filePath : String) (packageName : Option String) :
    Node → List Node → List Definition × SymTable → List Definition × SymTable
  | Node.mk t sb eb sr er fn nm cs, prevNamed, acc =>
    let produced := nodeDefs code file filePath packageName prevNamed
      (Node.mk t sb eb sr er fn nm cs)
    let acc1 := produced.foldl (fun a p => (a.1 ++ [p.2], stInsert a.2 p.1 p.2.id)) acc
    traverseChildren code file filePath packageName cs [] acc1

/-- The `for child in node.children: traverse(child)` loop, threading each
child's preceding-named-sibling chain. -/
def traverseChildren (code : List Char) (file filePath : String)
    (packageName : Option String) :
    List Node → List Node → List Definition × SymTable → List Definition × SymTable
  | [], _, acc => acc
  | c :: rest, prevNamed, acc =>
    let acc1 := traverse code file filePath packageName c prevNamed acc
    traverseChildren code file filePath packageName rest
      (if c.isNamed then c :: prevNamed else prevNamed) acc1

end

/-- The package-name loop of `collect_definitions`: scan the root's children,
and for each `package_clause` take its text with every occurrence of
`"package"` removed and surrounding whitespace stripped (a later clause
overwrites an earlier one). -/
def getPackageName (code : List Char) (root : Node) : Option String :=
  root.children.foldl
    (fun acc c =>
      if c.type == "package_clause" then
        some (String.mk (trimChars (replaceAll "package".toList [] (sliceChars code c))))
      else acc)
    none

/-- Python `file.endswith(".go")`. -/
def endsWithGo (s : String) : Bool :=
  List.isSuffixOf ".go".toList s.toList

/-- One source file of the project, as the directory walk presents it:
basename (`file`), joined path (`file_path`), its text, and the root node of
its parse tree.  A project is the list of such files in visit order. -/
structure SourceFile where
  file : String
  file_path : String
  code : List Char
  root : Node

/-- `collect_definitions(path)` over the project's files in visit order:
only `.go` files are processed; for each, the package name is read from the
root's children and the whole tree is traversed. -/
def collect_definitions (files : List SourceFile) : List Definition × SymTable :=
  files.foldl
    (fun acc sf =>
      if endsWithGo sf.file then
        traverse sf.code sf.file sf.file_path (getPackageName sf.code sf.root) sf.root [] acc
      else acc)
    ([], [])

mutual

/-- The recursive `find_calls` closure inside `collect_references`: for a
`call_expression` node with a `function` field whose literal text is a key of
the symbol table, append one Reference; then recurse into all children. -/
def find_calls (code : List Char) (filePath : String) (st : SymTable) :
    Node → List Reference → List Reference
  | Node.mk t sb eb sr er fn nm cs, refs =>
    let node := Node.mk t sb eb sr er fn nm cs
    let refs1 :=
      if t == "call_expression" then
        match childByFieldName node "function" with
        | some funcNode =>
          let funcName := get_text code funcNode
          match stLookup st funcName with
          | some defId =>
            refs ++ [⟨"function_call", funcName, defId, filePath, "Go", sr + 1,
              get_text code node⟩]
          | none => refs
        | none => refs
      else refs
    findCallsChildren code filePath st cs refs1

/-- The `for child in node.children: find_calls(child)` loop. -/
def findCallsChildren (code : List Char) (filePath : String) (st : SymTable) :
    List Node → List Reference → List Reference
  | [], refs => refs
  | c :: rest, refs =>
    findCallsChildren code filePath st rest (find_calls code filePath st c refs)

end

/-- `collect_references(path, symbol_table)` over the project's files in
visit order. -/
def collect_references (files : List SourceFile) (st : SymTable) : List Reference :=
  files.foldl
    (fun acc sf =>
      if endsWithGo sf.file then find_calls sf.code sf.file_path st sf.root acc else acc)
    []

/-- One step of building `ref_map`: append the reference to the group of its
`definition_id`, creating the group if absent (Python dict semantics). -/
def refMapAdd (m : List (String × List Reference)) (ref : Reference) :
    List (String × List Reference) :=
  if m.any (fun p => p.1 == ref.definition_id) then
    m.map (fun p => if p.1 = ref.definition_id then (p.1, p.2 ++ [ref]) else p)
  else
    m ++ [(ref.definition_id, [ref])]

/-- Lookup in `ref_map`. -/
def rmLookup (m : List (String × List Reference)) (k : String) : Option (List Reference) :=
  (m.find? (fun p => p.1 == k)).map (fun p => p.2)

/-- `merge_definitions_references(definitions, references)` from the source:
group the references by `definition_id`, then give every definition whose id
has a group that group as its `references` field; other definitions are left
unchanged. -/
def merge_definitions_references (definitions : List Definition)
    (references : List Reference) : List Definition :=
  let refMap := references.foldl refMapAdd []
  definitions.map (fun d =>
    match rmLookup refMap d.id with
    | some g => { d with references := g }
    | none => d)

/-- The `__main__` pipeline: pass one, pass two, merge. -/
def runPipeline (files : List SourceFile) : List Definition :=
  let dres := collect_definitions files
  let refs := collect_references files dres.2
  merge_definitions_references dres.1 refs

/-! ### Event traces

To reason about pass one we flatten `traverse` into the ordered list of
`(name, Definition)` production events it performs, and about pass two into
the ordered list of call sites `find_calls` inspects.  These mirror the
recursion structure of `traverse` and `find_calls` exactly and are connected
to them by proved decomposition lemmas below. -/

mutual

/-- The `(name, Definition)` production events of `traverse` on one node, in
order: the node's own productions, then those of its children (pre-order). -/
def defEvents (code : List Char) (file filePath : String) (packageName : Option String) :
    Node → List Node → List (String × Definition)
  | Node.mk t sb eb sr er fn nm cs, prevNamed =>
    nodeDefs code file filePath packageName prevNamed (Node.mk t sb eb sr er fn nm cs)
      ++ defEventsChildren code file filePath packageName cs []

/-- Production events of a list of sibling nodes, threading the
preceding-named-sibling chain. -/
def defEventsChildren (code : List Char) (file filePath : String)
    (packageName : Option String) :
    List Node → List Node → List (String × Definition)
  | [], _ => []
  | c :: rest, prevNamed =>
    defEvents code file filePath packageName c prevNamed
      ++ defEventsChildren code file filePath packageName rest
        (if c.isNamed then c :: prevNamed else prevNamed)

end

/-- Production events of the whole project, in file-visit then pre-order
traversal order: exactly the order in which `collect_definitions` appends
definitions and writes symbol-table entries. -/
def projectEvents (files : List SourceFile) : List (String × Definition) :=
  files.foldl
    (fun acc sf =>
      if endsWithGo sf.file then
        acc ++ defEvents sf.code sf.file sf.file_path (getPackageName sf.code sf.root)
          sf.root []
      else acc)
    []

/-- Replay a list of `(name, id)` assignments onto a symbol table. -/
def stOfEvents (st : SymTable) (evs : List (String × String)) : SymTable :=
  evs.foldl (fun a p => stInsert a p.1 p.2) st

/-- The keys of a symbol table, in order. -/
def stKeys (st : SymTable) : List String :=
  st.map (fun p => p.1)

mutual

/-- The call sites `find_calls` inspects on one node, in order: pairs of the
`call_expression` node and its `function` field child. -/
def callEvents : Node → List (Node × Node)
  | Node.mk t sb eb sr er fn nm cs =>
    (if t == "call_expression" then
      match childByFieldName (Node.mk t sb eb sr er fn nm cs) "function" with
      | some funcNode => [(Node.mk t sb eb sr er fn nm cs, funcNode)]
      | none => []
    else []) ++ callEventsChildren cs

/-- Call sites of a list of sibling nodes, in order. -/
def callEventsChildren : List Node → List (Node × Node)
  | [] => []
  | c :: rest => callEvents c ++ callEventsChildren rest

end

/-- One call site of the project, with the file context it occurs in. -/
structure CallSite where
  code : List Char
  file_path : String
  call : Node
  fn : Node

/-- All call sites of the project in file-visit then pre-order traversal
order, i.e. the order in which `collect_references` inspects them. -/
def projectCallEvents (files : List SourceFile) : List CallSite :=
  files.foldl
    (fun acc sf =>
      if endsWithGo sf.file then
        acc ++ (callEvents sf.root).map (fun p => ⟨sf.code, sf.file_path, p.1, p.2⟩)
      else acc)
    []

/-- The Reference (if any) that a call site yields against table `st`:
produced exactly when the callee's literal text is a key, carrying the
table's id, the callee text as name, the call's text as context and its
1-based start line. -/
def refOfCallSite (st : SymTable) (code : List Char) (filePath : String)
    (call fnNode : Node) : Option Reference :=
  match stLookup st (get_text code fnNode) with
  | some defId => some ⟨"function_call", get_text code fnNode, defId, filePath, "Go",
      call.startRow + 1, get_text code call⟩
  | none => none

/-- Modelled from the spec's words, for comparison with the code's
`getPackageName`: the clause text "stripped of exactly the leading `package`
keyword and surrounding whitespace". -/
def specStripPackage (s : String) : String :=
  let t := trimChars s.toList
  if List.isPrefixOf "package".toList t then String.mk (trimChars (t.drop 7))
  else String.mk t

/-! ### Concrete inputs used by witnesses and counterexamples -/

/-- Source text `const A, B = 1, 2`. -/
def wConstCode : List Char := String.toList "const A, B = 1, 2"

/-- The identifier `A` of the const declaration. -/
def wConstIdA : Node := Node.mk "identifier" 6 7 0 0 none true []

/-- The identifier `B` of the const declaration. -/
def wConstIdB : Node := Node.mk "identifier" 9 10 0 0 none true []

/-- A `const_declaration` node introducing the two names `A` and `B`. -/
def wConstNode : Node :=
  Node.mk "const_declaration" 0 17 0 0 none true [wConstIdA, wConstIdB]

/-- Source text `type T struct { X int }`. -/
def wTypeCode : List Char := String.toList "type T struct { X int }"

/-- The name node `T` of the type declaration. -/
def wTypeName : Node := Node.mk "type_identifier" 5 6 0 0 (some "name") true []

/-- The `type_spec` of the type declaration. -/
def wTypeSpec : Node := Node.mk "type_spec" 5 23 0 0 none true [wTypeName]

/-- A `type_declaration` node for `type T struct { X int }`. -/
def wTypeNode : Node := Node.mk "type_declaration" 0 23 0 0 none true [wTypeSpec]

/-- Source text of a grouped type declaration with two specs. -/
def wT2Code : List Char := String.toList "type ( A int\n B int )"

/-- Name node `A` (first spec). -/
def wT2NameA : Node := Node.mk "type_identifier" 7 8 0 0 (some "name") true []

/-- First `type_spec`, named `A`. -/
def wT2SpecA : Node := Node.mk "type_spec" 7 12 0 0 none true [wT2NameA]

/-- Name node `B` (second spec). -/
def wT2NameB : Node := Node.mk "type_identifier" 14 15 1 1 (some "name") true []

/-- Second `type_spec`, named `B`. -/
def wT2SpecB : Node := Node.mk "type_spec" 14 20 1 1 none true [wT2NameB]

/-- A `type_declaration` with two named `type_spec` children. -/
def wT2Node : Node := Node.mk "type_declaration" 0 21 0 1 none true [wT2SpecA, wT2SpecB]

/-- A `function_declaration` whose child occupies no `name` field. -/
def wNoNameFunc : Node :=
  Node.mk "function_declaration" 0 10 0 0 none true
    [Node.mk "identifier" 0 4 0 0 none true []]

/-- A `type_spec` without a `name` field. -/
def wTSNoName : Node := Node.mk "type_spec" 5 10 0 0 none true []

/-- A `type_declaration` whose only `type_spec` has no `name` field. -/
def wTypeNoName : Node := Node.mk "type_declaration" 0 10 0 0 none true [wTSNoName]

/-- A `call_expression` without a `function` field. -/
def wCallNoFn : Node :=
  Node.mk "call_expression" 0 5 0 0 none true
    [Node.mk "argument_list" 3 5 0 0 none true []]

/-- Source text `package packagetools` followed by `func F() {}`. -/
def wPkgCode : List Char := String.toList "package packagetools\nfunc F() {}"

/-- The file's `package_clause` node (span `package packagetools`). -/
def wPkgClause : Node := Node.mk "package_clause" 0 20 0 0 none true []

/-- The name node `F`. -/
def wPkgFuncName : Node := Node.mk "identifier" 26 27 1 1 (some "name") true []

/-- The `function_declaration` node for `F`. -/
def wPkgFunc : Node := Node.mk "function_declaration" 21 32 1 1 none true [wPkgFuncName]

/-- Root node of the `packagetools` file. -/
def wPkgRoot : Node := Node.mk "source_file" 0 32 0 1 none true [wPkgClause, wPkgFunc]

/-- The `packagetools` file as a project source file. -/
def wPkgFile : SourceFile := ⟨"main.go", "proj/main.go", wPkgCode, wPkgRoot⟩

/-- A concrete Definition with an empty `references` field. -/
def wDef : Definition :=
  ⟨"function_F_main.go_1", "function", none, "func F() {}", "func F() {}",
    some "main", "proj/main.go", "Go", 1, 1, []⟩

/-- A Reference whose `definition_id` matches `wDef`. -/
def wRef : Reference :=
  ⟨"function_call", "F", "function_F_main.go_1", "proj/main.go", "Go", 3, "F()"⟩

/-- A Reference whose `definition_id` matches no definition. -/
def wRefOrphan : Reference :=
  ⟨"function_call", "G", "missing_id", "proj/main.go", "Go", 4, "G()"⟩

/-! ### Symbol-table lemmas -/

theorem stLookup_nil (k : String) : stLookup [] k = none := rfl

theorem stLookup_cons (p : String × String) (rest : SymTable) (k : String) :
    stLookup (p :: rest) k = if p.1 = k then some p.2 else stLookup rest k := by
  unfold stLookup
  by_cases hp : p.1 = k
  · rw [List.find?_cons_of_pos _ (by simpa using hp), if_pos hp]
    rfl
  · rw [List.find?_cons_of_neg _ (by simpa using hp), if_neg hp]

theorem stLookup_overwrite_hit (st : SymTable) (k v : String)
    (h : st.any (fun p => p.1 == k) = true) :
    stLookup (st.map (fun p => if p.1 = k then (k, v) else p)) k = some v := by
  induction st with
  | nil => simp at h
  | cons p rest ih =>
    by_cases hp : p.1 = k
    · simp [stLookup_cons, hp]
    · have hrest : rest.any (fun p => p.1 == k) = true := by
        simp only [List.any_cons, Bool.or_eq_true, beq_iff_eq] at h
        exact h.resolve_left hp
      simpa [stLookup_cons, hp] using ih hrest

theorem stLookup_overwrite_miss (st : SymTable) (k v k' : String) (h : k' ≠ k) :
    stLookup (st.map (fun p => if p.1 = k then (k, v) else p)) k' = stLookup st k' := by
  induction st with
  | nil => rfl
  | cons p rest ih =>
    by_cases hp : p.1 = k
    · have h1 : ¬ (k = k') := fun hq => h hq.symm
      have h2 : ¬ (p.1 = k') := by rw [hp]; exact h1
      simpa [stLookup_cons, hp, h1, h2] using ih
    · by_cases hp' : p.1 = k'
      · simp [stLookup_cons, hp, hp', h]
      · simpa [stLookup_cons, hp, hp'] using ih

theorem stLookup_stInsert (st : SymTable) (k v k' : String) :
    stLookup (stInsert st k v) k' = if k' = k then some v else stLookup st k' := by
  unfold stInsert
  by_cases hk : st.any (fun p => p.1 == k)
  · rw [if_pos hk]
    by_cases h' : k' = k
    · subst h'
      rw [if_pos rfl]
      exact stLookup_overwrite_hit st k' v hk
    · rw [if_neg h']
      exact stLookup_overwrite_miss st k v k' h'
  · rw [if_neg hk]
    have hnone : st.find? (fun p => p.1 == k) = none := by
      rw [List.find?_eq_none]
      intro p hp hc
      exact hk (List.any_eq_true.mpr ⟨p, hp, hc⟩)
    by_cases h' : k' = k
    · subst h'
      rw [if_pos rfl]
      unfold stLookup
      rw [List.find?_append, hnone]
      simp [List.find?]
    · rw [if_neg h']
      unfold stLookup
      rw [List.find?_append]
      have hsing : List.find? (fun p => p.1 == k') [(k, v)] = none := by
        have hkk : ¬ (k = k') := fun hq => h' hq.symm
        have hb : (k == k') = false := beq_eq_false_iff_ne.mpr hkk
        simp [List.find?, hb]
      cases hfind : st.find? (fun p => p.1 == k') with
      | none => simp [hsing]
      | some p => simp

theorem stKeys_stInsert (st : SymTable) (k v : String) :
    stKeys (stInsert st k v) =
      if st.any (fun p => p.1 == k) then stKeys st else stKeys st ++ [k] := by
  unfold stInsert stKeys
  by_cases hk : st.any (fun p => p.1 == k)
  · rw [if_pos hk, if_pos hk, List.map_map]
    refine List.map_congr_left ?_
    intro p _
    by_cases hpk : p.1 = k
    · simp [hpk]
    · simp [hpk]
  · rw [if_neg hk, if_neg hk]
    simp

theorem stKeys_nodup_stInsert (st : SymTable) (k v : String)
    (h : (stKeys st).Nodup) : (stKeys (stInsert st k v)).Nodup := by
  rw [stKeys_stInsert]
  by_cases hk : st.any (fun p => p.1 == k)
  · rwa [if_pos hk]
  · rw [if_neg hk]
    have hnot : k ∉ stKeys st := by
      intro hmem
      apply hk
      rw [List.any_eq_true]
      rcases List.mem_map.mp hmem with ⟨p, hp, hpk⟩
      exact ⟨p, hp, by simpa using hpk⟩
    rw [List.nodup_append]
    exact ⟨h, List.nodup_singleton k, by
      intro a ha hb
      rw [List.mem_singleton] at hb
      exact hnot (hb ▸ ha)⟩

theorem stOfEvents_nil (st : SymTable) : stOfEvents st [] = st := rfl

theorem stOfEvents_cons (st : SymTable) (p : String × String)
    (evs : List (String × String)) :
    stOfEvents st (p :: evs) = stOfEvents (stInsert st p.1 p.2) evs := rfl

theorem stOfEvents_append (st : SymTable) (a b : List (String × String)) :
    stOfEvents st (a ++ b) = stOfEvents (stOfEvents st a) b := by
  unfold stOfEvents
  rw [List.foldl_append]

/-- Looking a name up after replaying a list of assignments returns the value
of the last assignment to that name, or falls back to the original table. -/
theorem stLookup_stOfEvents (st : SymTable) (evs : List (String × String)) (k : String) :
    stLookup (stOfEvents st evs) k =
      match (evs.filter (fun p => p.1 == k)).getLast? with
      | some p => some p.2
      | none => stLookup st k := by
  induction evs generalizing st with
  | nil => rfl
  | cons p rest ih =>
    rw [stOfEvents_cons, ih]
    by_cases hp : p.1 = k
    · rw [List.filter_cons_of_pos (by simpa using hp)]
      cases hfil : rest.filter (fun q => q.1 == k) with
      | nil =>
        simp only [hfil, List.getLast?_singleton, List.getLast?_nil]
        rw [stLookup_stInsert]
        simp [hp.symm]
      | cons q l =>
        simp only [hfil, List.getLast?_cons_cons]
        cases hlast : (q :: l).getLast? with
        | none =>
          have hs : (q :: l).getLast?.isSome = true := by simp
          rw [hlast] at hs
          cases hs
        | some r => rfl
    · rw [List.filter_cons_of_neg (by simpa using hp)]
      have hkp : ¬ (k = p.1) := fun hq => hp hq.symm
      cases hfil : rest.filter (fun q => q.1 == k) with
      | nil =>
        simp only [hfil, List.getLast?_nil]
        rw [stLookup_stInsert, if_neg hkp]
      | cons q l =>
        cases hlast : (q :: l).getLast? with
        | none =>
          have hs : (q :: l).getLast?.isSome = true := by simp
          rw [hlast] at hs
          cases hs
        | some r => rfl

theorem stKeys_nodup_stOfEvents (st : SymTable) (evs : List (String × String))
    (h : (stKeys st).Nodup) : (stKeys (stOfEvents st evs)).Nodup := by
  induction evs generalizing st with
  | nil => exact h
  | cons p rest ih => exact ih _ (stKeys_nodup_stInsert _ _ _ h)

theorem stLookup_isSome_iff (st : SymTable) (k : String) :
    (stLookup st k).isSome = true ↔ k ∈ stKeys st := by
  unfold stLookup stKeys
  cases hfind : st.find? (fun p => p.1 == k) with
  | none =>
    simp only [Option.map_none', Option.isSome_none]
    constructor
    · intro h
      cases h
    · intro hmem
      rcases List.mem_map.mp hmem with ⟨p, hp, hpk⟩
      have := List.find?_eq_none.mp hfind p hp
      simp [hpk] at this
  | some p =>
    simp only [Option.map_some', Option.isSome_some, true_iff]
    have hpk := List.find?_some hfind
    exact List.mem_map.mpr ⟨p, List.mem_of_find?_eq_some hfind, by simpa using hpk⟩

/-! ### Decomposition of pass one into its event trace -/

/-- Folding the per-node productions into the accumulator appends the
definitions and replays the `(name, id)` assignments. -/
theorem foldl_produce (produced : List (String × Definition))
    (ds : List Definition) (st : SymTable) :
    produced.foldl (fun a p => (a.1 ++ [p.2], stInsert a.2 p.1 p.2.id)) (ds, st) =
      (ds ++ produced.map (fun p => p.2),
        stOfEvents st (produced.map (fun p => (p.1, p.2.id)))) := by
  induction produced generalizing ds st with
  | nil => simp [stOfEvents]
  | cons p rest ih =>
    simp only [List.foldl_cons, List.map_cons]
    rw [ih]
    simp [stOfEvents_cons]

mutual

/-- `traverse` appends exactly the definitions of its event trace and replays
exactly the trace's symbol-table assignments, in order. -/
theorem traverse_eq (code : List Char) (file filePath : String)
    (packageName : Option String) (node : Node) (prevNamed : List Node)
    (ds : List Definition) (st : SymTable) :
    traverse code file filePath packageName node prevNamed (ds, st) =
      (ds ++ (defEvents code file filePath packageName node prevNamed).map (fun p => p.2),
        stOfEvents st ((defEvents code file filePath packageName node prevNamed).map
          (fun p => (p.1, p.2.id)))) := by
  cases node with
  | mk t sb eb sr er fn nm cs =>
    rw [traverse, defEvents, foldl_produce, traverseChildren_eq]
    simp [stOfEvents_append]

/-- Same statement for the child loop. -/
theorem traverseChildren_eq (code : List Char) (file filePath : String)
    (packageName : Option String) (cs : List Node) (prevNamed : List Node)
    (ds : List Definition) (st : SymTable) :
    traverseChildren code file filePath packageName cs prevNamed (ds, st) =
      (ds ++ (defEventsChildren code file filePath packageName cs prevNamed).map
          (fun p => p.2),
        stOfEvents st ((defEventsChildren code file filePath packageName cs prevNamed).map
          (fun p => (p.1, p.2.id)))) := by
  cases cs with
  | nil => simp [traverseChildren, defEventsChildren, stOfEvents]
  | cons c rest =>
    rw [traverseChildren, defEventsChildren, traverse_eq, traverseChildren_eq]
    simp [stOfEvents_append]

end

theorem foldl_append_join {α β : Type} (g : β → List α) (l : List β) (acc : List α) :
    l.foldl (fun a x => a ++ g x) acc = acc ++ (l.map g).flatten := by
  induction l generalizing acc with
  | nil => simp
  | cons x rest ih => simp [ih]

/-- `projectEvents` distributes over file visits. -/
theorem projectEvents_cons (sf : SourceFile) (rest : List SourceFile) :
    projectEvents (sf :: rest) =
      (if endsWithGo sf.file then
        defEvents sf.code sf.file sf.file_path (getPackageName sf.code sf.root) sf.root []
      else []) ++ projectEvents rest := by
  have hstep :
      (fun (a : List (String × Definition)) (sf : SourceFile) =>
        if endsWithGo sf.file then
          a ++ defEvents sf.code sf.file sf.file_path (getPackageName sf.code sf.root)
            sf.root []
        else a) =
      (fun (a : List (String × Definition)) (sf : SourceFile) =>
        a ++ (if endsWithGo sf.file then
          defEvents sf.code sf.file sf.file_path (getPackageName sf.code sf.root) sf.root []
        else [])) := by
    funext a sf
    by_cases h : endsWithGo sf.file
    · simp [h]
    · simp [h]
  unfold projectEvents
  rw [hstep, foldl_append_join, foldl_append_join]
  simp

/-- The foldl of `collect_definitions`, on any accumulator, appends the
project's event-trace definitions and replays its assignments. -/
theorem collect_definitions_foldl (files : List SourceFile) (ds : List Definition)
    (st : SymTable) :
    files.foldl
      (fun acc sf =>
        if endsWithGo sf.file then
          traverse sf.code sf.file sf.file_path (getPackageName sf.code sf.root) sf.root []
            acc
        else acc) (ds, st) =
      (ds ++ (projectEvents files).map (fun p => p.2),
        stOfEvents st ((projectEvents files).map (fun p => (p.1, p.2.id)))) := by
  induction files generalizing ds st with
  | nil => simp [projectEvents, stOfEvents]
  | cons sf rest ih =>
    simp only [List.foldl_cons, projectEvents_cons]
    by_cases hgo : endsWithGo sf.file
    · rw [if_pos hgo, if_pos hgo, traverse_eq, ih]
      simp [stOfEvents_append]
    · rw [if_neg hgo, if_neg hgo, ih]
      simp

/-- Pass one in closed form: the definitions are the event trace's
definitions in order, and the symbol table is the replay of its `(name, id)`
assignments onto the empty table. -/
theorem collect_definitions_eq (files : List SourceFile) :
    collect_definitions files =
      ((projectEvents files).map (fun p => p.2),
        stOfEvents [] ((projectEvents files).map (fun p => (p.1, p.2.id)))) := by
  unfold collect_definitions
  rw [collect_definitions_foldl]
  simp

/-! ### Decomposition of pass two into its call-site trace -/

mutual

/-- `find_calls` appends exactly the resolved references of the node's
call-site trace, in order. -/
theorem find_calls_eq (code : List Char) (filePath : String) (st : SymTable)
    (node : Node) (refs : List Reference) :
    find_calls code filePath st node refs =
      refs ++ (callEvents node).filterMap
        (fun p => refOfCallSite st code filePath p.1 p.2) := by
  cases node with
  | mk t sb eb sr er fn nm cs =>
    rw [find_calls, callEvents, findCallsChildren_eq, List.filterMap_append]
    by_cases ht : t == "call_expression"
    · rw [if_pos ht, if_pos ht]
      cases hfn : childByFieldName (Node.mk t sb eb sr er fn nm cs) "function" with
      | none => simp
      | some funcNode =>
        cases hlk : stLookup st (get_text code funcNode) with
        | none => simp [refOfCallSite, hlk]
        | some defId => simp [refOfCallSite, hlk, Node.startRow]
    · rw [if_neg ht, if_neg ht]
      simp

/-- Same statement for the child loop. -/
theorem findCallsChildren_eq (code : List Char) (filePath : String) (st : SymTable)
    (cs : List Node) (refs : List Reference) :
    findCallsChildren code filePath st cs refs =
      refs ++ (callEventsChildren cs).filterMap
        (fun p => refOfCallSite st code filePath p.1 p.2) := by
  cases cs with
  | nil => simp [findCallsChildren, callEventsChildren]
  | cons c rest =>
    rw [findCallsChildren, callEventsChildren, find_calls_eq, findCallsChildren_eq,
      List.filterMap_append]
    simp

end

/-- `projectCallEvents` distributes over file visits. -/
theorem projectCallEvents_cons (sf : SourceFile) (rest : List SourceFile) :
    projectCallEvents (sf :: rest) =
      (if endsWithGo sf.file then
        (callEvents sf.root).map (fun p => ⟨sf.code, sf.file_path, p.1, p.2⟩)
      else []) ++ projectCallEvents rest := by
  have hstep :
      (fun (a : List CallSite) (sf : SourceFile) =>
        if endsWithGo sf.file then
          a ++ (callEvents sf.root).map (fun p => (⟨sf.code, sf.file_path, p.1, p.2⟩ : CallSite))
        else a) =
      (fun (a : List CallSite) (sf : SourceFile) =>
        a ++ (if endsWithGo sf.file then
          (callEvents sf.root).map (fun p => (⟨sf.code, sf.file_path, p.1, p.2⟩ : CallSite))
        else [])) := by
    funext a sf
    by_cases h : endsWithGo sf.file
    · simp [h]
    · simp [h]
  unfold projectCallEvents
  rw [hstep, foldl_append_join, foldl_append_join]
  simp

/-- The foldl of `collect_references`, on any accumulator. -/
theorem collect_references_foldl (files : List SourceFile) (st : SymTable)
    (acc : List Reference) :
    files.foldl
      (fun acc sf =>
        if endsWithGo sf.file then find_calls sf.code sf.file_path st sf.root acc else acc)
      acc =
      acc ++ (projectCallEvents files).filterMap
        (fun q => refOfCallSite st q.code q.file_path q.call q.fn) := by
  induction files generalizing acc with
  | nil => simp [projectCallEvents]
  | cons sf rest ih =>
    simp only [List.foldl_cons, projectCallEvents_cons, List.filterMap_append]
    by_cases hgo : endsWithGo sf.file
    · rw [if_pos hgo, if_pos hgo, find_calls_eq, ih]
      have hfg : (fun p : Node × Node => refOfCallSite st sf.code sf.file_path p.1 p.2)
          = ((fun q : CallSite => refOfCallSite st q.code q.file_path q.call q.fn)
              ∘ (fun p : Node × Node =>
                  (⟨sf.code, sf.file_path, p.1, p.2⟩ : CallSite))) := rfl
      rw [List.filterMap_map, ← hfg]
      simp
    · rw [if_neg hgo, if_neg hgo, ih]
      simp

/-- Pass two in closed form: for every call site of the project, in traversal
order, a Reference is produced exactly when the callee's literal text is a
key of the symbol table, and its fields are as `refOfCallSite` states. -/
theorem collect_references_eq (files : List SourceFile) (st : SymTable) :
    collect_references files st =
      (projectCallEvents files).filterMap
        (fun q => refOfCallSite st q.code q.file_path q.call q.fn) := by
  unfold collect_references
  rw [collect_references_foldl]
  simp

/-! ### Lemmas about the Linker's reference map -/

theorem rmLookup_cons (p : String × List Reference) (rest : List (String × List Reference))
    (k : String) :
    rmLookup (p :: rest) k = if p.1 = k then some p.2 else rmLookup rest k := by
  unfold rmLookup
  by_cases hp : p.1 = k
  · rw [List.find?_cons_of_pos _ (by simpa using hp), if_pos hp]
    rfl
  · rw [List.find?_cons_of_neg _ (by simpa using hp), if_neg hp]

theorem rmLookup_map_hit (m : List (String × List Reference)) (ref : Reference)
    (h : m.any (fun p => p.1 == ref.definition_id) = true) :
    rmLookup (m.map (fun p => if p.1 = ref.definition_id then (p.1, p.2 ++ [ref]) else p))
      ref.definition_id =
      some ((rmLookup m ref.definition_id).getD [] ++ [ref]) := by
  induction m with
  | nil => simp at h
  | cons p rest ih =>
    by_cases hp : p.1 = ref.definition_id
    · simp [rmLookup_cons, hp]
    · have hrest : rest.any (fun p => p.1 == ref.definition_id) = true := by
        simp only [List.any_cons, Bool.or_eq_true, beq_iff_eq] at h
        exact h.resolve_left hp
      simpa [rmLookup_cons, hp] using ih hrest

theorem rmLookup_map_miss (m : List (String × List Reference)) (ref : Reference)
    (k : String) (h : k ≠ ref.definition_id) :
    rmLookup (m.map (fun p => if p.1 = ref.definition_id then (p.1, p.2 ++ [ref]) else p))
      k = rmLookup m k := by
  induction m with
  | nil => rfl
  | cons p rest ih =>
    have h3 : ¬ (ref.definition_id = k) := fun hq => h hq.symm
    by_cases hp : p.1 = ref.definition_id
    · simpa [rmLookup_cons, hp, h3] using ih
    · by_cases hp' : p.1 = k
      · simp [rmLookup_cons, hp, hp', h]
      · simpa [rmLookup_cons, hp, hp'] using ih

theorem rmLookup_refMapAdd (m : List (String × List Reference)) (ref : Reference)
    (k : String) :
    rmLookup (refMapAdd m ref) k =
      if ref.definition_id = k then some ((rmLookup m k).getD [] ++ [ref])
      else rmLookup m k := by
  unfold refMapAdd
  by_cases hany : m.any (fun p => p.1 == ref.definition_id)
  · rw [if_pos hany]
    by_cases hk : ref.definition_id = k
    · subst hk
      rw [if_pos rfl]
      exact rmLookup_map_hit m ref hany
    · rw [if_neg hk]
      exact rmLookup_map_miss m ref k (fun hq => hk hq.symm)
  · rw [if_neg hany]
    have hnone : m.find? (fun p => p.1 == ref.definition_id) = none := by
      rw [List.find?_eq_none]
      intro p hp hc
      exact hany (List.any_eq_true.mpr ⟨p, hp, hc⟩)
    by_cases hk : ref.definition_id = k
    · subst hk
      rw [if_pos rfl]
      unfold rmLookup
      rw [List.find?_append, hnone]
      have : rmLookup m ref.definition_id = none := by
        unfold rmLookup
        rw [hnone]
        rfl
      simp [this, List.find?]
    · rw [if_neg hk]
      unfold rmLookup
      rw [List.find?_append]
      have hb : (ref.definition_id == k) = false := beq_eq_false_iff_ne.mpr hk
      have hsing : List.find? (fun p => p.1 == k) [(ref.definition_id, [ref])] = none := by
        simp [List.find?, hb]
      cases hfind : m.find? (fun p => p.1 == k) with
      | none => simp [hsing]
      | some p => simp

/-- `ref_map` lookup after folding all references: the group for key `k` is
the sublist of references with `definition_id = k`, in collection order, and
absent when there are none (starting from an empty map). -/
theorem rmLookup_foldl (refs : List Reference) (m : List (String × List Reference))
    (k : String) :
    rmLookup (refs.foldl refMapAdd m) k =
      match rmLookup m k, refs.filter (fun r => r.definition_id == k) with
      | some g, fs => some (g ++ fs)
      | none, [] => none
      | none, f :: fs => some (f :: fs) := by
  induction refs generalizing m with
  | nil =>
    cases hm : rmLookup m k with
    | none => simp [List.foldl_nil, hm]
    | some g => simp [List.foldl_nil, hm]
  | cons r rest ih =>
    rw [List.foldl_cons, ih, rmLookup_refMapAdd]
    by_cases hr : r.definition_id = k
    · rw [if_pos hr, List.filter_cons_of_pos (by simpa using hr)]
      cases hm : rmLookup m k with
      | none => simp
      | some g => simp
    · rw [if_neg hr, List.filter_cons_of_neg (by simpa using hr)]

/-- The Linker in closed form: each definition whose id has at least one
matching reference gets exactly the filtered sublist, others are returned
unchanged. -/
theorem merge_definitions_references_eq (defs : List Definition) (refs : List Reference) :
    merge_definitions_references defs refs =
      defs.map (fun d =>
        match refs.filter (fun r => r.definition_id == d.id) with
        | [] => d
        | f :: fs => { d with references := f :: fs }) := by
  unfold merge_definitions_references
  refine List.map_congr_left ?_
  intro d _
  rw [rmLookup_foldl]
  cases hfil : refs.filter (fun r => r.definition_id == d.id) with
  | nil => rfl
  | cons f fs => rfl

/-! ### The doc-comment walk in closed form -/

theorem get_doc_comment_loop_eq (code : List Char) (sibs : List Node)
    (acc : List String) :
    get_doc_comment_loop code sibs acc =
      ((sibs.takeWhile (fun s => s.type == "comment")).map
        (fun s => stripCommentText (get_text code s))).reverse ++ acc := by
  induction sibs generalizing acc with
  | nil => simp [get_doc_comment_loop]
  | cons s rest ih =>
    rw [get_doc_comment_loop, List.takeWhile_cons]
    by_cases hs : (s.type == "comment") = true
    · rw [if_pos hs, if_pos hs, ih]
      simp
    · rw [if_neg hs, if_neg hs]
      simp

/-! ### Overwriting folds in closed form -/

/-- A left fold that overwrites its accumulator at every child satisfying `P`
ends up holding the value of the last such child (or the initial value). -/
theorem foldl_overwrite {α : Type} (P : Node → Bool) (g : Node → Option α)
    (cs : List Node) (init : Option α) :
    cs.foldl (fun acc c => if P c then g c else acc) init =
      match (cs.filter P).getLast? with
      | some c => g c
      | none => init := by
  induction cs generalizing init with
  | nil => rfl
  | cons c rest ih =>
    rw [List.foldl_cons, List.filter_cons]
    by_cases hc : P c = true
    · rw [if_pos hc, if_pos hc, ih]
      cases hfil : rest.filter P with
      | nil => simp
      | cons q l =>
        rw [List.getLast?_cons_cons]
        cases hlast : (q :: l).getLast? with
        | none =>
          have hs : (q :: l).getLast?.isSome = true := by simp
          rw [hlast] at hs
          cases hs
        | some r => rfl
    · rw [if_neg hc, if_neg hc, ih]

/-- The code's package-name loop in closed form: the last `package_clause`
child wins, its text is taken with every occurrence of `"package"` removed
and surrounding whitespace stripped; `none` exactly when there is no
`package_clause` child. -/
theorem getPackageName_eq (code : List Char) (root : Node) :
    getPackageName code root =
      (root.children.filter (fun c => c.type == "package_clause")).getLast?.map
        (fun c => String.mk (trimChars (replaceAll "package".toList [] (sliceChars code c)))) := by
  unfold getPackageName
  rw [foldl_overwrite (fun c => c.type == "package_clause")
    (fun c => some (String.mk (trimChars (replaceAll "package".toList [] (sliceChars code c)))))]
  cases hfil : (root.children.filter (fun c => c.type == "package_clause")).getLast? with
  | none => rfl
  | some c => rfl

/-- If `a` is the last element of a list and satisfies `p`, then `a` is also
the last element of the `p`-filtered list. -/
theorem getLast?_filter_of_getLast? {α : Type} (l : List α) (p : α → Bool) (a : α)
    (hl : l.getLast? = some a) (hp : p a = true) :
    (l.filter p).getLast? = some a := by
  rcases List.eq_nil_or_concat l with rfl | ⟨l2, b, rfl⟩
  · simp at hl
  · rw [List.concat_eq_append] at hl ⊢
    rw [List.getLast?_concat] at hl
    cases hl
    rw [List.filter_append]
    simp [hp, List.getLast?_concat]

/-! ### Shape facts about per-node production -/

/-- Every definition produced at a node carries the `packageName` argument as
its `package_name` field. -/
theorem nodeDefs_package_name (code : List Char) (file filePath : String)
    (pkg : Option String) (prevNamed : List Node) (node : Node) :
    ∀ p ∈ nodeDefs code file filePath pkg prevNamed node, p.2.package_name = pkg := by
  intro p hp
  simp only [nodeDefs] at hp
  split at hp
  · split at hp
    · simp only [List.mem_singleton] at hp
      rw [hp]
    · simp at hp
  · split at hp
    · rcases List.mem_map.mp hp with ⟨c, _, rfl⟩
      rfl
    · split at hp
      · split at hp
        · simp only [List.mem_singleton] at hp
          rw [hp]
        · simp at hp
      · simp at hp

mutual

/-- Every definition in a node's event trace carries the `packageName`
argument. -/
theorem defEvents_package_name (code : List Char) (file filePath : String)
    (pkg : Option String) (node : Node) (prevNamed : List Node) :
    ∀ p ∈ defEvents code file filePath pkg node prevNamed, p.2.package_name = pkg := by
  cases node with
  | mk t sb eb sr er fn nm cs =>
    intro p hp
    rw [defEvents] at hp
    rcases List.mem_append.mp hp with h | h
    · exact nodeDefs_package_name code file filePath pkg prevNamed _ p h
    · exact defEventsChildren_package_name code file filePath pkg cs [] p h

/-- Same statement for the child loop. -/
theorem defEventsChildren_package_name (code : List Char) (file filePath : String)
    (pkg : Option String) (cs : List Node) (prevNamed : List Node) :
    ∀ p ∈ defEventsChildren code file filePath pkg cs prevNamed,
      p.2.package_name = pkg := by
  cases cs with
  | nil =>
    intro p hp
    rw [defEventsChildren] at hp
    cases hp
  | cons c rest =>
    intro p hp
    rw [defEventsChildren] at hp
    rcases List.mem_append.mp hp with h | h
    · exact defEvents_package_name code file filePath pkg c prevNamed p h
    · exact defEventsChildren_package_name code file filePath pkg rest _ p h

end

/-- Helper: the last element of a list is a member. -/
theorem mem_of_getLast?_eq {α : Type} {l : List α} {a : α}
    (h : l.getLast? = some a) : a ∈ l := by
  rcases List.eq_nil_or_concat l with rfl | ⟨l2, b, rfl⟩
  · simp at h
  · rw [List.concat_eq_append, List.getLast?_concat] at h
    cases h
    rw [List.concat_eq_append]
    exact List.mem_append_right _ (List.mem_singleton.mpr rfl)

/-! ### The claims -/

/-- C1: after pass one (`collect_definitions`), the symbol table holds, for
every name, the id of the last produced definition with that name in
file-visit then pre-order traversal order (the order of `projectEvents`);
its keys are free of duplicates and a key is present exactly when some
definition event used that name; and after every prefix of the event trace
(every intermediate point of extraction) the table still has at most one
entry per name — a later definition with the same name overwrites the
earlier entry rather than adding a second one. -/
theorem symbol_table_shadowing_invariant (files : List SourceFile) :
    (∀ name : String,
      stLookup (collect_definitions files).2 name =
        ((((projectEvents files).map (fun p => (p.1, p.2.id))).filter
          (fun e => e.1 == name)).getLast?).map (fun e => e.2)) ∧
    (stKeys (collect_definitions files).2).Nodup ∧
    (∀ name : String, (stLookup (collect_definitions files).2 name).isSome = true ↔
      name ∈ (projectEvents files).map (fun p => p.1)) ∧
    (∀ n : Nat, (stKeys (stOfEvents []
      (((projectEvents files).map (fun p => (p.1, p.2.id))).take n))).Nodup) := by
  rw [collect_definitions_eq]
  simp only
  have hkeysnil : (stKeys ([] : SymTable)).Nodup := List.nodup_nil
  refine ⟨?_, ?_, ?_, ?_⟩
  · intro name
    rw [stLookup_stOfEvents]
    cases hfil : (((projectEvents files).map (fun p => (p.1, p.2.id))).filter
        (fun e => e.1 == name)).getLast? with
    | none => rfl
    | some e => rfl
  · exact stKeys_nodup_stOfEvents [] _ hkeysnil
  · intro name
    rw [stLookup_stOfEvents]
    cases hfil : (((projectEvents files).map (fun p => (p.1, p.2.id))).filter
        (fun e => e.1 == name)).getLast? with
    | none =>
      have hnil : ((projectEvents files).map (fun p => (p.1, p.2.id))).filter
          (fun e => e.1 == name) = [] := List.getLast?_eq_none_iff.mp hfil
      rw [List.filter_eq_nil_iff] at hnil
      simp only [stLookup_nil, Option.isSome_none]
      constructor
      · intro hfalse
        cases hfalse
      · intro hmem
        rcases List.mem_map.mp hmem with ⟨p, hp, hpk⟩
        have hcontra := hnil (p.1, p.2.id) (List.mem_map.mpr ⟨p, hp, rfl⟩)
        simp only [beq_iff_eq] at hcontra
        exact (hcontra hpk).elim
    | some e =>
      have hmem : e ∈ ((projectEvents files).map (fun p => (p.1, p.2.id))).filter
          (fun e => e.1 == name) := mem_of_getLast?_eq hfil
      rw [List.mem_filter] at hmem
      rcases List.mem_map.mp hmem.1 with ⟨p, hp, hpe⟩
      have hname : p.1 = name := by
        have := hmem.2
        rw [← hpe] at this
        simpa using this
      simp only [Option.isSome_some, true_iff]
      exact List.mem_map.mpr ⟨p, hp, hname⟩
  · intro n
    exact stKeys_nodup_stOfEvents [] _ hkeysnil

/-- C2: during pass two, for every call-expression node that has a callee
(`function` field) sub-expression — the project's call sites in traversal
order — a Reference is produced if and only if the callee's literal source
text is a key of the symbol table; the produced Reference carries the table
entry for that exact text as `definition_id`, the callee text as `name`,
the call expression's full text as `context` and the call's 1-based start
line; a callee text that is not a key yields no Reference (and no error:
`collect_references` is total). -/
theorem references_iff_symbol_table_hit (files : List SourceFile) (st : SymTable) :
    collect_references files st =
      (projectCallEvents files).filterMap (fun q =>
        match stLookup st (get_text q.code q.fn) with
        | some defId => some ⟨"function_call", get_text q.code q.fn, defId, q.file_path,
            "Go", q.call.startRow + 1, get_text q.code q.call⟩
        | none => none) := by
  rw [collect_references_eq]
  rfl

/-- C8: the pipeline is deterministic — two runs on equal project inputs
(same files, same parse trees, same visit order) produce equal pass-one
results, equal pass-two results, and equal final merged output, hence
identical serialized bytes and identical ids, groupings and ordering. -/
theorem pipeline_deterministic (files1 files2 : List SourceFile)
    (h : files1 = files2) :
    collect_definitions files1 = collect_definitions files2 ∧
    collect_references files1 (collect_definitions files1).2 =
      collect_references files2 (collect_definitions files2).2 ∧
    runPipeline files1 = runPipeline files2 := by
  subst h
  exact ⟨rfl, rfl, rfl⟩

/-- C8 witness: determinism instantiated on a concrete one-file project. -/
theorem pipeline_deterministic_witness :
    [wPkgFile] = [wPkgFile] ∧ runPipeline [wPkgFile] = runPipeline [wPkgFile] :=
  ⟨rfl, (pipeline_deterministic [wPkgFile] [wPkgFile] rfl).2.2⟩

/-- C4: the Linker is a total function (no failure case exists); given that
every input Definition carries an empty `references` field (as all pass-one
output does), the output is the input list with each Definition's
`references` field — and no other field — replaced by exactly the references
whose `definitionId` equals its id, in pass-two collection order; a
Definition with no matching reference keeps its empty sequence, and a
Reference whose `definitionId` matches no Definition's id is silently
dropped, appearing in no output Definition. -/
theorem linker_total_grouping (defs : List Definition) (refs : List Reference)
    (h : ∀ d ∈ defs, d.references = []) :
    merge_definitions_references defs refs =
      defs.map (fun d => { d with references := refs.filter (fun r => r.definition_id == d.id) }) ∧
    (∀ r ∈ refs, (∀ d ∈ defs, d.id ≠ r.definition_id) →
      ∀ d2 ∈ merge_definitions_references defs refs, r ∉ d2.references) := by
  have h1 : merge_definitions_references defs refs =
      defs.map (fun d => { d with references := refs.filter (fun r => r.definition_id == d.id) }) := by
    rw [merge_definitions_references_eq]
    refine List.map_congr_left ?_
    intro d hd
    cases hfil : refs.filter (fun r => r.definition_id == d.id) with
    | nil =>
      have hd0 := h d hd
      cases d
      simp only at hd0
      simp [hd0]
    | cons f fs => rfl
  refine ⟨h1, ?_⟩
  intro r hr hno d2 hd2 hmem
  rw [h1] at hd2
  rcases List.mem_map.mp hd2 with ⟨d, hd, rfl⟩
  simp only at hmem
  rw [List.mem_filter] at hmem
  have hid : r.definition_id = d.id := by simpa using hmem.2
  exact hno d hd hid.symm

/-- C4 witness: the Linker applied to one Definition with empty references,
one matching Reference and one orphan Reference. -/
theorem linker_total_grouping_witness :
    (∀ d ∈ [wDef], d.references = []) ∧
    merge_definitions_references [wDef] [wRef, wRefOrphan] =
      [wDef].map (fun d => { d with references := [wRef, wRefOrphan].filter (fun r => r.definition_id == d.id) }) := by
  have h : ∀ d ∈ [wDef], d.references = [] := by
    intro d hd
    rw [List.mem_singleton] at hd
    rw [hd]
    rfl
  exact ⟨h, (linker_total_grouping [wDef] [wRef, wRefOrphan] h).1⟩

/-- C6: `get_doc_comment` collects the maximal chain of preceding named
siblings that are comment nodes (the walk stops at the first non-comment
sibling, blank-line gaps being invisible to it), strips each comment's
leading slashes and surrounding whitespace, joins them with newlines in
source order — the chain is nearest-first, so the collected list is
reversed — and returns `none` exactly when the walk finds zero comment
siblings. -/
theorem doc_comment_resolver (code : List Char) (sibs : List Node) :
    (get_doc_comment code sibs =
      if (sibs.takeWhile (fun s => s.type == "comment")).isEmpty then none
      else some (String.intercalate "\n"
        (((sibs.takeWhile (fun s => s.type == "comment")).map
          (fun s => stripCommentText (get_text code s))).reverse))) ∧
    (get_doc_comment code sibs = none ↔
      sibs.takeWhile (fun s => s.type == "comment") = []) := by
  have hmain : get_doc_comment code sibs =
      if (sibs.takeWhile (fun s => s.type == "comment")).isEmpty then none
      else some (String.intercalate "\n"
        (((sibs.takeWhile (fun s => s.type == "comment")).map
          (fun s => stripCommentText (get_text code s))).reverse)) := by
    by_cases he : sibs.takeWhile (fun s => s.type == "comment") = []
    · simp [get_doc_comment, get_doc_comment_loop_eq, he]
    · have h1 : (((sibs.takeWhile (fun s => s.type == "comment")).map
          (fun s => stripCommentText (get_text code s))).reverse).isEmpty = false := by
        simp only [List.isEmpty_eq_false_iff_exists_mem]
        rcases List.exists_mem_of_ne_nil _ he with ⟨s, hs⟩
        exact ⟨stripCommentText (get_text code s), by
          rw [List.mem_reverse]
          exact List.mem_map.mpr ⟨s, hs, rfl⟩⟩
      have h2 : (sibs.takeWhile (fun s => s.type == "comment")).isEmpty = false := by
        simp [List.isEmpty_iff, he]
      simp [get_doc_comment, get_doc_comment_loop_eq, h1, h2]
  refine ⟨hmain, ?_⟩
  rw [hmain]
  by_cases he : sibs.takeWhile (fun s => s.type == "comment") = []
  · simp [he]
  · have h2 : (sibs.takeWhile (fun s => s.type == "comment")).isEmpty = false := by
      simp [List.isEmpty_iff, he]
    rw [h2]
    simp [he]

/-- C7 counterexample: for the file `package packagetools` + `func F() {}`,
the claim as stated demands the package name `"packagetools"` (the clause
text stripped of exactly the leading `package` keyword and whitespace), but
the code removes every occurrence of the substring `"package"` and attaches
`"tools"` to the produced Definition. -/
theorem package_name_strip_counterexample :
    getPackageName wPkgCode wPkgRoot = some "tools" ∧
    (nodeDefs wPkgCode "main.go" "proj/main.go" (getPackageName wPkgCode wPkgRoot)
      [wPkgClause] wPkgFunc).map (fun p => p.2.package_name) = [some "tools"] ∧
    specStripPackage (get_text wPkgCode wPkgClause) = "packagetools" ∧
    (some "tools" : Option String) ≠ some "packagetools" := by
  refine ⟨by decide, by decide, by decide, by decide⟩

/-- C7 (amended): every Definition produced from a file carries that file's
package name, which the code computes as the text of the root's last
`package_clause` child with every occurrence of the substring `"package"`
removed and surrounding whitespace stripped; it is `none` exactly when the
root has no `package_clause` child. -/
theorem package_name_attached (code : List Char) (file filePath : String) (root : Node) :
    (∀ p ∈ defEvents code file filePath (getPackageName code root) root [],
      p.2.package_name = getPackageName code root) ∧
    getPackageName code root =
      ((root.children.filter (fun c => c.type == "package_clause")).getLast?).map
        (fun c => String.mk (trimChars (replaceAll "package".toList [] (sliceChars code c)))) ∧
    (getPackageName code root = none ↔
      root.children.filter (fun c => c.type == "package_clause") = []) := by
  refine ⟨defEvents_package_name code file filePath _ root [], getPackageName_eq code root, ?_⟩
  rw [getPackageName_eq]
  rw [Option.map_eq_none']
  exact List.getLast?_eq_none_iff

/-- C3: a const or var declaration node produces exactly one Definition per
bare identifier child, in order; all of them share the node's snippet, doc
comment, signature, package and line span, and differ only in the
name-derived id (and the name that keys their symbol-table entry). -/
theorem const_var_multi_name (code : List Char) (file filePath : String)
    (pkg : Option String) (prevNamed : List Node) (node : Node)
    (h : node.type = "const_declaration" ∨ node.type = "var_declaration") :
    (nodeDefs code file filePath pkg prevNamed node).length =
      (node.children.filter (fun c => c.type == "identifier")).length ∧
    (nodeDefs code file filePath pkg prevNamed node).map (fun p => p.1) =
      (node.children.filter (fun c => c.type == "identifier")).map (get_text code) ∧
    (∀ p ∈ nodeDefs code file filePath pkg prevNamed node,
      p.2.snippet = get_text code node ∧
      p.2.doc_string = get_doc_comment code prevNamed ∧
      p.2.signature = firstLine (get_text code node) ∧
      p.2.line_from = node.startRow + 1 ∧
      p.2.line_to = node.endRow + 1 ∧
      p.2.package_name = pkg ∧
      p.2.type = (if node.type == "const_declaration" then "constant" else "variable") ∧
      p.2.id = p.2.type ++ "_" ++ p.1 ++ "_" ++ file ++ "_" ++
        toString (node.startRow + 1)) := by
  have hne : (node.type == "function_declaration" ||
      node.type == "method_declaration") = false := by
    rcases h with h | h <;> rw [h] <;> rfl
  have hcv : (node.type == "const_declaration" ||
      node.type == "var_declaration") = true := by
    rcases h with h | h <;> rw [h] <;> rfl
  have hform : nodeDefs code file filePath pkg prevNamed node =
      ((node.children.filter (fun c => c.type == "identifier")).map (get_text code)).map
        (fun name =>
          (name,
            ⟨(if node.type == "const_declaration" then "constant" else "variable") ++ "_" ++
                name ++ "_" ++ file ++ "_" ++ toString (node.startRow + 1),
              (if node.type == "const_declaration" then "constant" else "variable"),
              get_doc_comment code prevNamed, firstLine (get_text code node),
              get_text code node, pkg, filePath, "Go", node.startRow + 1, node.endRow + 1,
              []⟩)) := by
    unfold nodeDefs
    rw [hne, hcv]
    simp
  refine ⟨?_, ?_, ?_⟩
  · rw [hform]
    simp
  · rw [hform]
    simp [List.map_map]
  · intro p hp
    rw [hform] at hp
    rcases List.mem_map.mp hp with ⟨name, _, rfl⟩
    exact ⟨rfl, rfl, rfl, rfl, rfl, rfl, rfl, rfl⟩

/-- C3 witness: `const A, B = 1, 2` with two identifier children produces
two Definitions named `A` and `B`. -/
theorem const_var_multi_name_witness :
    (wConstNode.type = "const_declaration" ∨ wConstNode.type = "var_declaration") ∧
    (nodeDefs wConstCode "w.go" "p/w.go" none [] wConstNode).length =
      (wConstNode.children.filter (fun c => c.type == "identifier")).length ∧
    (nodeDefs wConstCode "w.go" "p/w.go" none [] wConstNode).map (fun p => p.1) =
      ["A", "B"] := by
  refine ⟨Or.inl rfl, ?_, by decide⟩
  exact (const_var_multi_name wConstCode "w.go" "p/w.go" none [] wConstNode (Or.inl rfl)).1

/-- C5: a Definition produced from a type declaration node is classified
`struct` exactly when the literal substring `struct` occurs anywhere in the
node's own source text (its snippet), and `interface` otherwise; the
classification is a function of the node's span slice alone, so text outside
the declaration's span (e.g. a preceding doc comment) cannot affect it. -/
theorem struct_interface_classification (code : List Char) (file filePath : String)
    (pkg : Option String) (prevNamed : List Node) (node : Node)
    (h : node.type = "type_declaration") :
    (∀ p ∈ nodeDefs code file filePath pkg prevNamed node,
      p.2.type = (if containsStruct (get_text code node) then "struct" else "interface")) ∧
    (∀ code2 : List Char, sliceChars code2 node = sliceChars code node →
      ∀ p ∈ nodeDefs code2 file filePath pkg prevNamed node,
        p.2.type = (if containsStruct (get_text code node) then "struct"
          else "interface")) := by
  have key : ∀ cd : List Char, ∀ p ∈ nodeDefs cd file filePath pkg prevNamed node,
      p.2.type = (if containsStruct (get_text cd node) then "struct" else "interface") := by
    intro cd p hp
    have hne1 : (node.type == "function_declaration" ||
        node.type == "method_declaration") = false := by rw [h]; rfl
    have hne2 : (node.type == "const_declaration" ||
        node.type == "var_declaration") = false := by rw [h]; rfl
    have ht : (node.type == "type_declaration") = true := by rw [h]; rfl
    simp only [nodeDefs, hne1, hne2, ht, Bool.false_eq_true, if_false, if_true] at hp
    split at hp
    · rw [List.mem_singleton] at hp
      rw [hp]
    · cases hp
  refine ⟨key code, ?_⟩
  intro code2 hslice p hp
  have htype := key code2 p hp
  rw [htype]
  unfold get_text
  rw [hslice]

/-- C5 witness: `type T struct { X int }` is classified through its snippet's
`struct` substring. -/
theorem struct_interface_classification_witness :
    wTypeNode.type = "type_declaration" ∧
    (∀ p ∈ nodeDefs wTypeCode "w.go" "p/w.go" none [] wTypeNode,
      p.2.type = (if containsStruct (get_text wTypeCode wTypeNode) then "struct"
        else "interface")) ∧
    (nodeDefs wTypeCode "w.go" "p/w.go" none [] wTypeNode).map (fun p => p.2.type) =
      ["struct"] := by
  refine ⟨rfl, ?_, by decide⟩
  exact (struct_interface_classification wTypeCode "w.go" "p/w.go" none [] wTypeNode rfl).1

/-- C9: a function/method declaration with no `name` field, a type
declaration none of whose `type_spec` children has a `name` field, and a
call expression with no `function` field are silently skipped: they produce
no Definition, no symbol-table entry and no Reference, and no error occurs —
traversal reduces to the plain walk of their children. -/
theorem missing_fields_skipped (code : List Char) (file filePath : String)
    (pkg : Option String) (prevNamed : List Node) (st : SymTable)
    (node : Node) (acc : List Definition × SymTable) (refs : List Reference) :
    (((node.type = "function_declaration" ∨ node.type = "method_declaration") ∧
        childByFieldName node "name" = none) →
      nodeDefs code file filePath pkg prevNamed node = [] ∧
      traverse code file filePath pkg node prevNamed acc =
        traverseChildren code file filePath pkg node.children [] acc) ∧
    ((node.type = "type_declaration" ∧
        (∀ c ∈ node.children, c.type = "type_spec" → childByFieldName c "name" = none)) →
      nodeDefs code file filePath pkg prevNamed node = [] ∧
      traverse code file filePath pkg node prevNamed acc =
        traverseChildren code file filePath pkg node.children [] acc) ∧
    ((node.type = "call_expression" ∧ childByFieldName node "function" = none) →
      find_calls code filePath st node refs =
        findCallsChildren code filePath st node.children refs) := by
  cases node with
  | mk t sb eb sr er fn nm cs =>
    refine ⟨?_, ?_, ?_⟩
    · rintro ⟨ht, hname⟩
      have hb : (Node.type (Node.mk t sb eb sr er fn nm cs) == "function_declaration" ||
          Node.type (Node.mk t sb eb sr er fn nm cs) == "method_declaration") = true := by
        rcases ht with ht | ht <;> rw [ht] <;> rfl
      have hzero : nodeDefs code file filePath pkg prevNamed
          (Node.mk t sb eb sr er fn nm cs) = [] := by
        simp [nodeDefs, hb, hname]
      refine ⟨hzero, ?_⟩
      rw [traverse, hzero]
      exact rfl
    · rintro ⟨ht, hnone⟩
      have hb1 : (Node.type (Node.mk t sb eb sr er fn nm cs) == "function_declaration" ||
          Node.type (Node.mk t sb eb sr er fn nm cs) == "method_declaration") = false := by
        rw [ht]; rfl
      have hb2 : (Node.type (Node.mk t sb eb sr er fn nm cs) == "const_declaration" ||
          Node.type (Node.mk t sb eb sr er fn nm cs) == "var_declaration") = false := by
        rw [ht]; rfl
      have hb3 : (Node.type (Node.mk t sb eb sr er fn nm cs) == "type_declaration") = true := by
        rw [ht]; rfl
      have hfold : (Node.children (Node.mk t sb eb sr er fn nm cs)).foldl
          (fun acc c => if c.type == "type_spec" then childByFieldName c "name" else acc)
          none = none := by
        rw [foldl_overwrite]
        cases hfil : ((Node.children (Node.mk t sb eb sr er fn nm cs)).filter
            (fun c => c.type == "type_spec")).getLast? with
        | none => rfl
        | some ts =>
          have hmem := mem_of_getLast?_eq hfil
          rw [List.mem_filter] at hmem
          exact hnone ts hmem.1 (by simpa using hmem.2)
      have hzero : nodeDefs code file filePath pkg prevNamed
          (Node.mk t sb eb sr er fn nm cs) = [] := by
        simp only [nodeDefs, hb1, hb2, hb3, Bool.false_eq_true, if_false, if_true]
        rw [hfold]
      refine ⟨hzero, ?_⟩
      rw [traverse, hzero]
      exact rfl
    · rintro ⟨ht, hfn⟩
      have hb : (t == "call_expression") = true := by
        have heq : t = "call_expression" := by simpa [Node.type] using ht
        rw [heq]
        decide
      rw [find_calls]
      simp only [hb, if_true, hfn]
      exact rfl

/-- C9 witness: the three missing-field shapes on concrete nodes. -/
theorem missing_fields_skipped_witness :
    (nodeDefs [] "w.go" "p/w.go" none [] wNoNameFunc = [] ∧
      traverse [] "w.go" "p/w.go" none wNoNameFunc [] ([], []) =
        traverseChildren [] "w.go" "p/w.go" none wNoNameFunc.children [] ([], [])) ∧
    (nodeDefs [] "w.go" "p/w.go" none [] wTypeNoName = [] ∧
      traverse [] "w.go" "p/w.go" none wTypeNoName [] ([], []) =
        traverseChildren [] "w.go" "p/w.go" none wTypeNoName.children [] ([], [])) ∧
    find_calls [] "p/w.go" [] wCallNoFn [] =
      findCallsChildren [] "p/w.go" [] wCallNoFn.children [] := by
  refine ⟨?_, ?_, ?_⟩
  · exact (missing_fields_skipped [] "w.go" "p/w.go" none [] [] wNoNameFunc ([], []) []).1
      ⟨Or.inl rfl, rfl⟩
  · refine (missing_fields_skipped [] "w.go" "p/w.go" none [] [] wTypeNoName ([], []) []).2.1
      ⟨rfl, ?_⟩
    intro c hc hts
    have hc2 : c = wTSNoName := by
      simpa [wTypeNoName, Node.children] using hc
    rw [hc2]
    rfl
  · exact (missing_fields_skipped [] "w.go" "p/w.go" none [] [] wCallNoFn ([], []) []).2.2
      ⟨rfl, rfl⟩

/-- C10: a type declaration node produces at most one Definition; when one
is produced, its name is the text of the `name` field of the node's last
`type_spec` child — which then necessarily has a `name` field and is
therefore also the last `type_spec` child possessing one — while earlier
`type_spec` children contribute no Definition and no entry of their own. -/
theorem type_declaration_last_spec (code : List Char) (file filePath : String)
    (pkg : Option String) (prevNamed : List Node) (node : Node)
    (h : node.type = "type_declaration") :
    (nodeDefs code file filePath pkg prevNamed node).length ≤ 1 ∧
    (∀ p ∈ nodeDefs code file filePath pkg prevNamed node,
      ∃ ts nn,
        (node.children.filter (fun c => c.type == "type_spec")).getLast? = some ts ∧
        childByFieldName ts "name" = some nn ∧
        (node.children.filter (fun c =>
          (c.type == "type_spec") && (childByFieldName c "name").isSome)).getLast? =
            some ts ∧
        p.1 = get_text code nn) := by
  have hne1 : (node.type == "function_declaration" ||
      node.type == "method_declaration") = false := by rw [h]; rfl
  have hne2 : (node.type == "const_declaration" ||
      node.type == "var_declaration") = false := by rw [h]; rfl
  have ht : (node.type == "type_declaration") = true := by rw [h]; rfl
  have hcomm : (fun c : Node =>
        (c.type == "type_spec") && (childByFieldName c "name").isSome) =
      (fun c : Node =>
        (childByFieldName c "name").isSome && (c.type == "type_spec")) := by
    funext c
    exact Bool.and_comm _ _
  cases hfil : (node.children.filter (fun c => c.type == "type_spec")).getLast? with
  | none =>
    have hzero : nodeDefs code file filePath pkg prevNamed node = [] := by
      simp only [nodeDefs, hne1, hne2, ht, Bool.false_eq_true, if_false, if_true]
      rw [foldl_overwrite, hfil]
    rw [hzero]
    exact ⟨by simp, by intro p hp; cases hp⟩
  | some ts =>
    cases hnn : childByFieldName ts "name" with
    | none =>
      have hzero : nodeDefs code file filePath pkg prevNamed node = [] := by
        simp only [nodeDefs, hne1, hne2, ht, Bool.false_eq_true, if_false, if_true]
        rw [foldl_overwrite, hfil]
        simp only [hnn]
      rw [hzero]
      exact ⟨by simp, by intro p hp; cases hp⟩
    | some nn =>
      have hone : nodeDefs code file filePath pkg prevNamed node =
          [(get_text code nn,
            ⟨(if containsStruct (get_text code node) then "struct" else "interface") ++
                "_" ++ get_text code nn ++ "_" ++ file ++ "_" ++
                toString (node.startRow + 1),
              (if containsStruct (get_text code node) then "struct" else "interface"),
              get_doc_comment code prevNamed, firstLine (get_text code node),
              get_text code node, pkg, filePath, "Go", node.startRow + 1,
              node.endRow + 1, []⟩)] := by
        simp only [nodeDefs, hne1, hne2, ht, Bool.false_eq_true, if_false, if_true]
        rw [foldl_overwrite, hfil]
        simp only [hnn]
      rw [hone]
      refine ⟨by simp, ?_⟩
      intro p hp
      rw [List.mem_singleton] at hp
      refine ⟨ts, nn, rfl, hnn, ?_, by rw [hp]⟩
      rw [hcomm, ← List.filter_filter]
      exact getLast?_filter_of_getLast? _ _ ts hfil (by simp [hnn])

/-- C10 witness: a type declaration with two named `type_spec` children —
the produced name is the last spec's `B`, not the first spec's `A`. -/
theorem type_declaration_last_spec_witness :
    wT2Node.type = "type_declaration" ∧
    (nodeDefs wT2Code "w.go" "p/w.go" none [] wT2Node).length ≤ 1 ∧
    (nodeDefs wT2Code "w.go" "p/w.go" none [] wT2Node).map (fun p => p.1) = ["B"] := by
  refine ⟨rfl, ?_, by decide⟩
  exact (type_declaration_last_spec wT2Code "w.go" "p/w.go" none [] wT2Node rfl).1

end GoIndexer
